import Mathlib

/-!
Verification development for the QuadTreePress repository (quadtree-based
lossy image compression with an auxiliary spatial point index).

The embedding follows `src/tree.py` and `src/work_with_images.py`.

Modelling conventions:
* Pixel coordinates and box edges are rationals (`ℚ`): Python mixes ints and
  the exact midpoints `left + (right - left) / 2`, which are dyadic rationals.
* The PIL image is external (spec section 6 declares the sampler an external
  interface): the tree construction is parametrised by an abstract error
  metric `err : Box → ℚ` standing for the value the code computes from the
  cropped region's histogram via `color_from_histogram`.  The histogram
  statistics themselves are embedded separately (`weighted_average`,
  `color_from_histogram`); the code's final `** 0.5` / luma combination passes
  through real square roots, so those definitions return the radicands and
  theorems speak about `Real.sqrt` of them.
* Python's `threading.Thread` fan-out with `join` in `__build_tree` is a
  fork-join whose sequential result is deterministic; `build_tree` threads the
  `max_depth` accumulator through the four child builds in order.
* Mutation of `node_points` becomes structural rebuilding of the tree.
-/

namespace QuadTreePress

def MAX_DEPTH : ℕ := 8

def ERROR_THRESHOLD : ℚ := 13

/-- Class `Point` from `tree.py`: a pair of coordinates. -/
structure Point where
  x_coordinate : ℚ
  y_coordinate : ℚ
deriving DecidableEq

/-- Method `Point.__eq__` exactly as written in the source: it compares
`self.x_coordinate` with `another.y_coordinate` (and `self.y_coordinate`
with `another.y_coordinate`). -/
def Point.pyEq (p another : Point) : Bool :=
  decide (p.x_coordinate = another.y_coordinate) &&
    decide (p.y_coordinate = another.y_coordinate)

/-- Function `weighted_average(hist)` from `tree.py`.  The Python function returns
`(value, error)` with `error = (Σ x·(value−i)² / total) ** 0.5`; to keep the
definition computable we return the radicand (the second component), and
theorems state facts about `Real.sqrt` of it.  `hist.getD i 0` is the `i`-th
count, and `enumerate` becomes a sum over `Finset.range hist.length`. -/
def weighted_average (hist : List ℕ) : ℚ × ℚ :=
  let total : ℕ := hist.sum
  if 0 < total then
    let value : ℚ :=
      (∑ i in Finset.range hist.length, (i : ℚ) * (hist.getD i 0 : ℚ)) / (total : ℚ)
    let error_sq : ℚ :=
      (∑ i in Finset.range hist.length,
        (hist.getD i 0 : ℚ) * (value - (i : ℚ)) ^ 2) / (total : ℚ)
    (value, error_sq)
  else (0, 0)

/-- Function `color_from_histogram(hist)` from `tree.py`: slices the 768-entry
histogram into the three channels, averages each, truncates the averages to
integers (`int(...)`; the values are non-negative so truncation is the
floor), and keeps the three per-channel error radicands; the code combines
them as `0.2989·√r + 0.5870·√g + 0.1140·√b`, see `combined_error`. -/
def color_from_histogram (hist : List ℕ) : (ℤ × ℤ × ℤ) × (ℚ × ℚ × ℚ) :=
  let red := weighted_average (hist.take 256)
  let green := weighted_average ((hist.drop 256).take 256)
  let blue := weighted_average ((hist.drop 512).take 256)
  ((⌊red.1⌋, ⌊green.1⌋, ⌊blue.1⌋), (red.2, green.2, blue.2))

/-- The luma-weighted combined error of `color_from_histogram`, taking the
square roots the Python code takes (as real numbers). -/
noncomputable def combined_error (e : ℚ × ℚ × ℚ) : ℝ :=
  0.2989 * Real.sqrt (e.1 : ℝ) + 0.5870 * Real.sqrt (e.2.1 : ℝ) +
    0.1140 * Real.sqrt (e.2.2 : ℝ)

/-- A `border_box` `(left, top, right, bottom)`. -/
structure Box where
  left : ℚ
  top : ℚ
  right : ℚ
  bottom : ℚ
deriving DecidableEq

/-- Centre point `node_center_point` as computed in `QuadtreeNode.__init__`:
`left + (right-left)/2` and `top + (bottom-top)/2`. -/
def Box.node_center_point (b : Box) : Point :=
  ⟨b.left + (b.right - b.left) / 2, b.top + (b.bottom - b.top) / 2⟩

/-- The four `split` sub-boxes, in the order the code builds them. -/
def Box.top_left (b : Box) : Box :=
  ⟨b.left, b.top, b.node_center_point.x_coordinate, b.node_center_point.y_coordinate⟩

def Box.top_right (b : Box) : Box :=
  ⟨b.node_center_point.x_coordinate, b.top, b.right, b.node_center_point.y_coordinate⟩

def Box.bottom_left (b : Box) : Box :=
  ⟨b.left, b.node_center_point.y_coordinate, b.node_center_point.x_coordinate, b.bottom⟩

def Box.bottom_right (b : Box) : Box :=
  ⟨b.node_center_point.x_coordinate, b.node_center_point.y_coordinate, b.right, b.bottom⟩

/-- The set of image points a box covers, half-open on the right/bottom
(spec section 3: "half-open" regions). -/
def Box.region (b : Box) : Set (ℚ × ℚ) :=
  {q | b.left ≤ q.1 ∧ q.1 < b.right ∧ b.top ≤ q.2 ∧ q.2 < b.bottom}

/-- A box whose edges are in the usual order (every box cropped from an
image satisfies this, and halving preserves it). -/
def Box.Ordered (b : Box) : Prop :=
  b.left ≤ b.right ∧ b.top ≤ b.bottom

instance (b : Box) : Decidable b.Ordered := by
  unfold Box.Ordered; infer_instance

/-- Class `QuadtreeNode` from `tree.py`.  `childrens` is `None` (modelled `[]`)
or the 4-element list `split` assigns; `error` stores the node's cached
error metric; `node_points` is the spatial-index collection. -/
inductive QuadtreeNode : Type where
  | node (border_box : Box) (depth : ℕ) (error : ℚ) (leaf_flag : Bool)
      (node_points : List Point) (childrens : List QuadtreeNode) : QuadtreeNode

def QuadtreeNode.border_box : QuadtreeNode → Box
  | .node b _ _ _ _ _ => b

def QuadtreeNode.depth : QuadtreeNode → ℕ
  | .node _ d _ _ _ _ => d

def QuadtreeNode.error : QuadtreeNode → ℚ
  | .node _ _ e _ _ _ => e

def QuadtreeNode.is_leaf : QuadtreeNode → Bool
  | .node _ _ _ l _ _ => l

def QuadtreeNode.node_points : QuadtreeNode → List Point
  | .node _ _ _ _ pts _ => pts

def QuadtreeNode.childrens : QuadtreeNode → List QuadtreeNode
  | .node _ _ _ _ _ cs => cs

def QuadtreeNode.node_center_point (n : QuadtreeNode) : Point :=
  n.border_box.node_center_point

/-- Method `QuadTree.__build_tree` together with the node construction of
`QuadtreeNode.__init__` / `split`: a node over box `b` at depth `depth`
caches `err b`; if `depth >= MAX_DEPTH or error <= ERROR_THRESHOLD` it is
marked a leaf and the `max_depth` accumulator becomes
`max md depth` (the code's `if node.depth > self.__max_depth` update);
otherwise the node splits into the four quadrant children, each built in
turn (the code's fork-join over four `threading.Thread`s, sequentialised;
the final accumulator is the same).  `fuel` is a structural-recursion
bound: every call keeps `MAX_DEPTH < depth + fuel`, so the `fuel = 0`
branch (identical to the leaf branch, and then `MAX_DEPTH ≤ depth` holds)
is never taken from the root call with `fuel = MAX_DEPTH + 1`. -/
def build_tree (err : Box → ℚ) : ℕ → Box → ℕ → ℕ → QuadtreeNode × ℕ
  | 0, b, depth, md =>
      (QuadtreeNode.node b depth (err b) true [] [], max md depth)
  | fuel + 1, b, depth, md =>
      if MAX_DEPTH ≤ depth ∨ err b ≤ ERROR_THRESHOLD then
        (QuadtreeNode.node b depth (err b) true [] [], max md depth)
      else
        let p1 := build_tree err fuel b.top_left (depth + 1) md
        let p2 := build_tree err fuel b.top_right (depth + 1) p1.2
        let p3 := build_tree err fuel b.bottom_left (depth + 1) p2.2
        let p4 := build_tree err fuel b.bottom_right (depth + 1) p3.2
        (QuadtreeNode.node b depth (err b) false [] [p1.1, p2.1, p3.1, p4.1],
          p4.2)

/-- Class `QuadTree` from `tree.py`: width/height, root, `max_depth`. -/
structure QuadTree where
  width : ℕ
  height : ℕ
  root : QuadtreeNode
  max_depth : ℕ

/-- The root box.  `QuadTree.__init__` passes `image.getbbox()`, which for
an image with no all-zero border is the full bounds `(0, 0, w, h)`; the
spec describes the root as built "over the full image bounds", and we model
it as such. -/
def full_box (w h : ℕ) : Box := ⟨0, 0, (w : ℚ), (h : ℚ)⟩

/-- Constructor `QuadTree.__init__`: build the root over the full bounds at depth 0
with `max_depth` starting at 0. -/
def QuadTree.build (err : Box → ℚ) (w h : ℕ) : QuadTree :=
  let r := build_tree err (MAX_DEPTH + 1) (full_box w h) 0 0
  ⟨w, h, r.1, r.2⟩

mutual

/-- Method `QuadTree.get_leaf_nodes_recursion`: append the node if it is a leaf or
sits at the requested depth, otherwise recurse into the children (the
code's `elif node.childrens is not None` loop; `[]` models `None`, so the
`else` branch contributes nothing exactly when the code's does). -/
def get_leaf_nodes_recursion (depth : ℕ) : QuadtreeNode → List QuadtreeNode
  | QuadtreeNode.node b d e l pts cs =>
      if l = true ∨ d = depth then [QuadtreeNode.node b d e l pts cs]
      else glnr_children depth cs

/-- The `for child in node.childrens` loop of the recursion (appending to
`leaf_nodes` in order). -/
def glnr_children (depth : ℕ) : List QuadtreeNode → List QuadtreeNode
  | [] => []
  | c :: rest => get_leaf_nodes_recursion depth c ++ glnr_children depth rest

end

/-- The message of the `ValueError` raised by `get_leaf_nodes`. -/
def invalid_depth_msg : String :=
  "InvalidDepth: depth greater than the height of the tree"

/-- Method `QuadTree.get_leaf_nodes`: raise when `depth > max_depth`, otherwise
collect recursively from the root. -/
def QuadTree.get_leaf_nodes (qt : QuadTree) (depth : ℕ) :
    Except String (List QuadtreeNode) :=
  if qt.max_depth < depth then Except.error invalid_depth_msg
  else Except.ok (get_leaf_nodes_recursion depth qt.root)

/-- Method `QuadtreeNode.insert_point`, with mutation rendered as rebuilding.
The source has four independent `if`s over the quadrant conditions; the
first two (`top_left`, `top_right`) `return` the recursive call, so the
trailing `self.node_points.append(point)` is skipped for them, while the
`bottom_left` / `bottom_right` branches fall through to the append.  The
conditions are mutually exclusive and exhaustive, so the `if`-chain below
is equivalent.  `childrens` is only ever `None` (`[]` here) or a 4-element
list; the catch-all branch is the `None` case. -/
def insert_point (point : Point) : QuadtreeNode → QuadtreeNode
  | QuadtreeNode.node b d e l pts cs =>
      match cs with
      | [c0, c1, c2, c3] =>
          let ctr := b.node_center_point
          if point.x_coordinate < ctr.x_coordinate ∧
              point.y_coordinate < ctr.y_coordinate then
            QuadtreeNode.node b d e l pts [insert_point point c0, c1, c2, c3]
          else if ctr.x_coordinate ≤ point.x_coordinate ∧
              point.y_coordinate < ctr.y_coordinate then
            QuadtreeNode.node b d e l pts [c0, insert_point point c1, c2, c3]
          else if point.x_coordinate < ctr.x_coordinate ∧
              ctr.y_coordinate ≤ point.y_coordinate then
            QuadtreeNode.node b d e l (pts ++ [point])
              [c0, c1, insert_point point c2, c3]
          else
            QuadtreeNode.node b d e l (pts ++ [point])
              [c0, c1, c2, insert_point point c3]
      | _ => QuadtreeNode.node b d e l (pts ++ [point]) cs
termination_by structural n => n

/-- The root-to-terminal descent path of a point: the node itself followed
by the path inside the quadrant child chosen by the comparison against the
centre point (the routing shared by `insert_point` and `find_node`; a
coordinate equal to the centre routes to the greater-or-equal side). -/
def descent_path (point : Point) : QuadtreeNode → List QuadtreeNode
  | QuadtreeNode.node b d e l pts cs =>
      QuadtreeNode.node b d e l pts cs ::
        match cs with
        | [c0, c1, c2, c3] =>
            let ctr := b.node_center_point
            if point.x_coordinate < ctr.x_coordinate ∧
                point.y_coordinate < ctr.y_coordinate then
              descent_path point c0
            else if ctr.x_coordinate ≤ point.x_coordinate ∧
                point.y_coordinate < ctr.y_coordinate then
              descent_path point c1
            else if point.x_coordinate < ctr.x_coordinate ∧
                ctr.y_coordinate ≤ point.y_coordinate then
              descent_path point c2
            else
              descent_path point c3
        | _ => []
termination_by structural n => n

/-- Method `QuadtreeNode.find_node`: returns the terminal node and the list of
visited nodes (the code appends `self` to `search_list` before descending;
its `elif` chain tests the same four quadrant conditions, and the
per-child `is not None` guards are always true since children are only
created in fours). -/
def find_node (point : Point) : QuadtreeNode → List QuadtreeNode →
    QuadtreeNode × List QuadtreeNode
  | QuadtreeNode.node b d e l pts cs, search_list =>
      let sl := search_list ++ [QuadtreeNode.node b d e l pts cs]
      match cs with
      | [c0, c1, c2, c3] =>
          let ctr := b.node_center_point
          if point.x_coordinate < ctr.x_coordinate ∧
              point.y_coordinate < ctr.y_coordinate then
            find_node point c0 sl
          else if ctr.x_coordinate ≤ point.x_coordinate ∧
              point.y_coordinate < ctr.y_coordinate then
            find_node point c1 sl
          else if point.x_coordinate < ctr.x_coordinate ∧
              ctr.y_coordinate ≤ point.y_coordinate then
            find_node point c2 sl
          else
            find_node point c3 sl
      | _ => (QuadtreeNode.node b d e l pts cs, sl)
termination_by structural n sl => n

/-- Python's `list.remove(x)`: drop the first element `z` with `z == x`
(`==` being `Point.__eq__`, so `Point.pyEq z x`). -/
def py_list_remove (l : List Point) (x : Point) : List Point :=
  match l with
  | [] => []
  | a :: rest => if Point.pyEq a x then rest else a :: py_list_remove rest x

/-- The `for point in node_points: if point == delete_point:
node_points.remove(point)` loop of `remove_point`, with CPython's list
iteration semantics: an internal index advances by one each step over the
(possibly shrunk) list.  `fuel` is a structural bound on the remaining
steps: every step increases `i` and never lengthens the list, so
`l.length - i` strictly decreases and fuel `l.length` (see `remove_loop`)
is never exhausted while `i < l.length`. -/
def remove_loop_fuel (delete_point : Point) : ℕ → List Point → ℕ → List Point
  | 0, l, _ => l
  | fuel + 1, l, i =>
      if h : i < l.length then
        let item := l.get ⟨i, h⟩
        if Point.pyEq item delete_point then
          remove_loop_fuel delete_point fuel (py_list_remove l item) (i + 1)
        else
          remove_loop_fuel delete_point fuel l (i + 1)
      else l

def remove_loop (delete_point : Point) (l : List Point) : List Point :=
  remove_loop_fuel delete_point l.length l 0

/-- Method `QuadtreeNode.remove_point`: locate the terminal node for the point
(the same descent as `find_node`) and run the removal loop on that node's
own collection; ancestors are untouched.  Mutation of the terminal node
becomes rebuilding the tree along the descent path. -/
def remove_point (delete_point : Point) : QuadtreeNode → QuadtreeNode
  | QuadtreeNode.node b d e l pts cs =>
      match cs with
      | [c0, c1, c2, c3] =>
          let ctr := b.node_center_point
          if delete_point.x_coordinate < ctr.x_coordinate ∧
              delete_point.y_coordinate < ctr.y_coordinate then
            QuadtreeNode.node b d e l pts [remove_point delete_point c0, c1, c2, c3]
          else if ctr.x_coordinate ≤ delete_point.x_coordinate ∧
              delete_point.y_coordinate < ctr.y_coordinate then
            QuadtreeNode.node b d e l pts [c0, remove_point delete_point c1, c2, c3]
          else if delete_point.x_coordinate < ctr.x_coordinate ∧
              ctr.y_coordinate ≤ delete_point.y_coordinate then
            QuadtreeNode.node b d e l pts [c0, c1, remove_point delete_point c2, c3]
          else
            QuadtreeNode.node b d e l pts [c0, c1, c2, remove_point delete_point c3]
      | _ => QuadtreeNode.node b d e l (remove_loop delete_point pts) cs
termination_by structural n => n

/-- The leaf set `create_image` draws for one requested level
(`work_with_images.py`): rendering itself is external, the core output is
`get_leaf_nodes(level)`. -/
def create_image_leaves (qt : QuadTree) (level : ℕ) :
    Except String (List QuadtreeNode) :=
  qt.get_leaf_nodes level

/-- The gif branch of `compression_start`: `for value in
range(MAX_DEPTH + 1)` collect one frame per depth; the first raised
`InvalidDepth` aborts the loop (and `create_gif`, which writes the file,
is never reached), which `Except`'s `mapM` models by short-circuiting. -/
def animation_frames (qt : QuadTree) :
    Except String (List (List QuadtreeNode)) :=
  (List.range (MAX_DEPTH + 1)).mapM (fun v => create_image_leaves qt v)

/-- Relation stating that `m` occurs in the tree rooted at `n` (reflexively, or inside a child). -/
inductive Occurs : QuadtreeNode → QuadtreeNode → Prop where
  | refl : ∀ n, Occurs n n
  | step : ∀ {m c n}, c ∈ n.childrens → Occurs m c → Occurs m n

/-- The shape invariant `__build_tree` establishes: a node is a leaf with no
children exactly when the stopping rule fires, and otherwise carries the
four quadrant children at depth + 1; every node caches `err` of its box. -/
inductive Built (err : Box → ℚ) : QuadtreeNode → Prop where
  | leaf : ∀ (b : Box) (d : ℕ) (pts : List Point),
      (MAX_DEPTH ≤ d ∨ err b ≤ ERROR_THRESHOLD) →
      Built err (QuadtreeNode.node b d (err b) true pts [])
  | branch : ∀ (b : Box) (d : ℕ) (pts : List Point)
      (c0 c1 c2 c3 : QuadtreeNode),
      ¬ (MAX_DEPTH ≤ d ∨ err b ≤ ERROR_THRESHOLD) →
      c0.border_box = b.top_left → c1.border_box = b.top_right →
      c2.border_box = b.bottom_left → c3.border_box = b.bottom_right →
      c0.depth = d + 1 → c1.depth = d + 1 →
      c2.depth = d + 1 → c3.depth = d + 1 →
      Built err c0 → Built err c1 → Built err c2 → Built err c3 →
      Built err (QuadtreeNode.node b d (err b) false pts [c0, c1, c2, c3])

/-- Relation stating that `m` is the first node along a root-to-leaf branch of `n` satisfying
the cut condition `is_leaf = true ∨ depth = d`: no proper ancestor on the
branch satisfies it, and the traversal never descends past `m`. -/
inductive FirstCut (d : ℕ) : QuadtreeNode → QuadtreeNode → Prop where
  | here : ∀ n, (n.is_leaf = true ∨ n.depth = d) → FirstCut d n n
  | deeper : ∀ {n c m}, ¬ (n.is_leaf = true ∨ n.depth = d) →
      c ∈ n.childrens → FirstCut d c m → FirstCut d n m

/-- The union of the regions of a list of nodes. -/
def cover_set (l : List QuadtreeNode) : Set (ℚ × ℚ) :=
  {q | ∃ m ∈ l, q ∈ m.border_box.region}

mutual

/-- The depths of the leaves of a tree, in traversal order (the order in
which the sequentialised build marks leaves and updates `max_depth`). -/
def leaf_depths : QuadtreeNode → List ℕ
  | QuadtreeNode.node _ d _ l _ cs =>
      if l = true then [d] else leaf_depths_children cs

def leaf_depths_children : List QuadtreeNode → List ℕ
  | [] => []
  | c :: rest => leaf_depths c ++ leaf_depths_children rest

end

/-- Whether one call of `insert_point` on this node appends the point to
this node's own `node_points`: always when the node has no children
(terminal), and otherwise exactly when the point's y-coordinate is on the
greater-or-equal side of the centre (the two top-quadrant branches
`return` before the trailing `append`). -/
def records_point (p : Point) (m : QuadtreeNode) : Bool :=
  match m.childrens with
  | [_, _, _, _] =>
      decide (m.border_box.node_center_point.y_coordinate ≤ p.y_coordinate)
  | _ => true

/-- A 256-bin histogram with all mass (`c` counts) concentrated at bin `k`. -/
def concentrated_hist (k c : ℕ) : List ℕ :=
  (List.range 256).map (fun i => if i = k then c else 0)

/-- The constant-zero error metric: the value `color_from_histogram` yields
on every crop of a uniform flat-colour image (each channel histogram is
concentrated, so every channel error radicand is 0). -/
def zero_error : Box → ℚ := fun _ => 0

/-- A two-level tree (a root with four quadrant leaf children), as built
over a 2×2 image whose root error exceeds the threshold. -/
def c2_tree : QuadtreeNode :=
  QuadtreeNode.node ⟨0, 0, 2, 2⟩ 0 100 false []
    [QuadtreeNode.node ⟨0, 0, 1, 1⟩ 1 0 true [] [],
     QuadtreeNode.node ⟨1, 0, 2, 1⟩ 1 0 true [] [],
     QuadtreeNode.node ⟨0, 1, 1, 2⟩ 1 0 true [] [],
     QuadtreeNode.node ⟨1, 1, 2, 2⟩ 1 0 true [] []]

/-- A single-leaf tree whose local collection holds the point (1, 2). -/
def c3_tree : QuadtreeNode :=
  QuadtreeNode.node ⟨0, 0, 4, 4⟩ 0 0 true [⟨1, 2⟩] []

/-- Structural strong induction for `QuadtreeNode` (its nested `List`
children make the auto-generated recursor inconvenient). -/
theorem QuadtreeNode.strong_ind (P : QuadtreeNode → Prop)
    (h : ∀ b d e l pts cs, (∀ c ∈ cs, P c) →
      P (QuadtreeNode.node b d e l pts cs)) :
    ∀ n, P n
  | QuadtreeNode.node b d e l pts cs =>
      h b d e l pts cs (fun c hc => QuadtreeNode.strong_ind P h c)
termination_by n => sizeOf n
decreasing_by
  have := List.sizeOf_lt_of_mem hc
  simp only [QuadtreeNode.node.sizeOf_spec] at *
  omega

/-- One-step unfolding of `build_tree` at positive fuel (definitional);
used instead of simp-unfolding so literal fuels do not unroll. -/
theorem build_tree_succ (err : Box → ℚ) (fuel : ℕ) (b : Box) (d md : ℕ) :
    build_tree err (fuel + 1) b d md =
      if MAX_DEPTH ≤ d ∨ err b ≤ ERROR_THRESHOLD then
        (QuadtreeNode.node b d (err b) true [] [], max md d)
      else
        (QuadtreeNode.node b d (err b) false []
          [(build_tree err fuel b.top_left (d + 1) md).1,
           (build_tree err fuel b.top_right (d + 1)
             (build_tree err fuel b.top_left (d + 1) md).2).1,
           (build_tree err fuel b.bottom_left (d + 1)
             (build_tree err fuel b.top_right (d + 1)
               (build_tree err fuel b.top_left (d + 1) md).2).2).1,
           (build_tree err fuel b.bottom_right (d + 1)
             (build_tree err fuel b.bottom_left (d + 1)
               (build_tree err fuel b.top_right (d + 1)
                 (build_tree err fuel b.top_left (d + 1) md).2).2).2).1],
         (build_tree err fuel b.bottom_right (d + 1)
           (build_tree err fuel b.bottom_left (d + 1)
             (build_tree err fuel b.top_right (d + 1)
               (build_tree err fuel b.top_left (d + 1) md).2).2).2).2) := by
  rfl

theorem build_tree_border_box (err : Box → ℚ) (fuel : ℕ) (b : Box)
    (d md : ℕ) : (build_tree err fuel b d md).1.border_box = b := by
  cases fuel with
  | zero => rfl
  | succ f =>
      simp only [build_tree]
      split <;> rfl

theorem build_tree_depth (err : Box → ℚ) (fuel : ℕ) (b : Box)
    (d md : ℕ) : (build_tree err fuel b d md).1.depth = d := by
  cases fuel with
  | zero => rfl
  | succ f =>
      simp only [build_tree]
      split <;> rfl

theorem build_tree_built (err : Box → ℚ) (fuel : ℕ) (b : Box) (d md : ℕ)
    (hfuel : MAX_DEPTH < d + fuel) :
    Built err (build_tree err fuel b d md).1 := by
  induction fuel generalizing b d md with
  | zero =>
      have hd : MAX_DEPTH ≤ d := by omega
      exact Built.leaf b d [] (Or.inl hd)
  | succ f ih =>
      simp only [build_tree]
      split
      · exact Built.leaf b d [] (by assumption)
      · exact Built.branch b d [] _ _ _ _ (by assumption)
          (build_tree_border_box ..)
          (build_tree_border_box ..) (build_tree_border_box ..)
          (build_tree_border_box ..) (build_tree_depth ..)
          (build_tree_depth ..) (build_tree_depth ..) (build_tree_depth ..)
          (ih _ _ _ (by omega)) (ih _ _ _ (by omega))
          (ih _ _ _ (by omega)) (ih _ _ _ (by omega))

theorem root_built (err : Box → ℚ) (w h : ℕ) :
    Built err (QuadTree.build err w h).root :=
  build_tree_built err (MAX_DEPTH + 1) (full_box w h) 0 0 (by omega)

theorem root_border_box (err : Box → ℚ) (w h : ℕ) :
    (QuadTree.build err w h).root.border_box = full_box w h :=
  build_tree_border_box ..

theorem root_depth (err : Box → ℚ) (w h : ℕ) :
    (QuadTree.build err w h).root.depth = 0 :=
  build_tree_depth ..

theorem built_occurs {err : Box → ℚ} {n m : QuadtreeNode}
    (hb : Built err n) (ho : Occurs m n) : Built err m := by
  induction ho with
  | refl => exact hb
  | step hc _ ih =>
      rename_i m c n
      cases hb with
      | leaf b d pts hst => simp [QuadtreeNode.childrens] at hc
      | branch b d pts c0 c1 c2 c3 hst h0 h1 h2 h3 hd0 hd1 hd2 hd3 b0 b1 b2 b3 =>
          simp only [QuadtreeNode.childrens, List.mem_cons,
            List.not_mem_nil, or_false] at hc
          rcases hc with rfl | rfl | rfl | rfl
          · exact ih b0
          · exact ih b1
          · exact ih b2
          · exact ih b3

/-- Edge ordering propagates from a box to its four quadrants. -/
theorem quad_ordered (b : Box) (hb : b.Ordered) :
    b.top_left.Ordered ∧ b.top_right.Ordered ∧
      b.bottom_left.Ordered ∧ b.bottom_right.Ordered := by
  rcases hb with ⟨h1, h2⟩
  refine ⟨⟨?_, ?_⟩, ⟨?_, ?_⟩, ⟨?_, ?_⟩, ⟨?_, ?_⟩⟩ <;>
    simp only [Box.top_left, Box.top_right, Box.bottom_left, Box.bottom_right,
      Box.node_center_point] <;> linarith

/-- The four quadrant regions cover exactly the parent region. -/
theorem quad_cover (b : Box) (hb : b.Ordered) :
    b.top_left.region ∪ (b.top_right.region ∪ (b.bottom_left.region ∪
      b.bottom_right.region)) = b.region := by
  rcases hb with ⟨h1, h2⟩
  ext q
  simp only [Box.region, Box.top_left, Box.top_right, Box.bottom_left,
    Box.bottom_right, Box.node_center_point, Set.mem_union, Set.mem_setOf_eq]
  constructor
  · rintro (⟨a1, a2, a3, a4⟩ | ⟨a1, a2, a3, a4⟩ | ⟨a1, a2, a3, a4⟩ |
      ⟨a1, a2, a3, a4⟩) <;>
      exact ⟨by linarith, by linarith, by linarith, by linarith⟩
  · rintro ⟨a1, a2, a3, a4⟩
    rcases lt_or_le q.1 (b.left + (b.right - b.left) / 2) with hx | hx <;>
      rcases lt_or_le q.2 (b.top + (b.bottom - b.top) / 2) with hy | hy
    · exact Or.inl ⟨a1, hx, a3, hy⟩
    · exact Or.inr (Or.inr (Or.inl ⟨a1, hx, hy, a4⟩))
    · exact Or.inr (Or.inl ⟨hx, a2, a3, hy⟩)
    · exact Or.inr (Or.inr (Or.inr ⟨hx, a2, hy, a4⟩))

/-- Each quadrant region is contained in the parent region. -/
theorem quad_subset (b : Box) (hb : b.Ordered) :
    b.top_left.region ⊆ b.region ∧ b.top_right.region ⊆ b.region ∧
      b.bottom_left.region ⊆ b.region ∧ b.bottom_right.region ⊆ b.region := by
  rcases hb with ⟨h1, h2⟩
  refine ⟨?_, ?_, ?_, ?_⟩ <;> intro q hq <;>
    simp only [Box.region, Box.top_left, Box.top_right, Box.bottom_left,
      Box.bottom_right, Box.node_center_point, Set.mem_setOf_eq] at hq ⊢ <;>
    rcases hq with ⟨a1, a2, a3, a4⟩ <;>
    exact ⟨by linarith, by linarith, by linarith, by linarith⟩

theorem region_inter_empty (b1 b2 : Box)
    (h : ∀ q : ℚ × ℚ, q ∈ b1.region → q ∈ b2.region → False) :
    b1.region ∩ b2.region = ∅ := by
  ext q
  simp only [Set.mem_inter_iff, Set.mem_empty_iff_false, iff_false, not_and]
  exact fun h1 h2 => h q h1 h2

/-- The six pairwise disjointnesses of the four quadrant regions. -/
theorem quad_disjoints (b : Box) :
    b.top_left.region ∩ b.top_right.region = ∅ ∧
    b.top_left.region ∩ b.bottom_left.region = ∅ ∧
    b.top_left.region ∩ b.bottom_right.region = ∅ ∧
    b.top_right.region ∩ b.bottom_left.region = ∅ ∧
    b.top_right.region ∩ b.bottom_right.region = ∅ ∧
    b.bottom_left.region ∩ b.bottom_right.region = ∅ := by
  refine ⟨?_, ?_, ?_, ?_, ?_, ?_⟩ <;>
    refine region_inter_empty _ _ (fun q hq1 hq2 => ?_) <;>
    simp only [Box.region, Box.top_left, Box.top_right, Box.bottom_left,
      Box.bottom_right, Box.node_center_point, Set.mem_setOf_eq] at hq1 hq2 <;>
    rcases hq1 with ⟨a1, a2, a3, a4⟩ <;> rcases hq2 with ⟨e1, e2, e3, e4⟩ <;>
    linarith

theorem inter_empty_mono {α : Type} {A B C D : Set α} (hA : A ⊆ C)
    (hB : B ⊆ D) (h : C ∩ D = ∅) : A ∩ B = ∅ := by
  apply Set.eq_empty_iff_forall_not_mem.mpr
  intro q hq
  have hq' : q ∈ C ∩ D := ⟨hA hq.1, hB hq.2⟩
  rw [h] at hq'
  exact hq'

theorem inter_empty_comm {α : Type} {A B : Set α} (h : A ∩ B = ∅) :
    B ∩ A = ∅ := by
  rw [Set.inter_comm]; exact h

/-- Box ordering propagates from a built root to every node in it. -/
theorem built_occurs_ordered {err : Box → ℚ} {n m : QuadtreeNode}
    (ho : Occurs m n) : Built err n → n.border_box.Ordered →
      m.border_box.Ordered := by
  induction ho with
  | refl => exact fun _ hord => hord
  | step hc _ ih =>
      intro hb hord
      cases hb with
      | leaf b d pts hst => simp [QuadtreeNode.childrens] at hc
      | branch b d pts c0 c1 c2 c3 hst h0 h1 h2 h3 hd0 hd1 hd2 hd3
          b0 b1 b2 b3 =>
          simp only [QuadtreeNode.border_box] at hord
          have hq := quad_ordered b hord
          simp only [QuadtreeNode.childrens, List.mem_cons,
            List.not_mem_nil, or_false] at hc
          rcases hc with rfl | rfl | rfl | rfl
          · exact ih b0 (by rw [h0]; exact hq.1)
          · exact ih b1 (by rw [h1]; exact hq.2.1)
          · exact ih b2 (by rw [h2]; exact hq.2.2.1)
          · exact ih b3 (by rw [h3]; exact hq.2.2.2)

/-- Depth is bounded by `MAX_DEPTH` everywhere in a built tree whose root
respects the bound (splitting requires `depth < MAX_DEPTH`). -/
theorem built_occurs_depth_le {err : Box → ℚ} {n m : QuadtreeNode}
    (ho : Occurs m n) : Built err n → n.depth ≤ MAX_DEPTH →
      m.depth ≤ MAX_DEPTH := by
  induction ho with
  | refl => exact fun _ hd => hd
  | step hc _ ih =>
      intro hb _
      cases hb with
      | leaf b d pts hst => simp [QuadtreeNode.childrens] at hc
      | branch b d pts c0 c1 c2 c3 hst h0 h1 h2 h3 hd0 hd1 hd2 hd3
          b0 b1 b2 b3 =>
          have hdlt : d < MAX_DEPTH := by
            rcases Nat.lt_or_ge d MAX_DEPTH with h | h
            · exact h
            · exact absurd (Or.inl h) hst
          simp only [QuadtreeNode.childrens, List.mem_cons,
            List.not_mem_nil, or_false] at hc
          rcases hc with rfl | rfl | rfl | rfl
          · exact ih b0 (by rw [hd0]; omega)
          · exact ih b1 (by rw [hd1]; omega)
          · exact ih b2 (by rw [hd2]; omega)
          · exact ih b3 (by rw [hd3]; omega)

theorem mem_glnr_children_iff (depth : ℕ) (cs : List QuadtreeNode)
    (m : QuadtreeNode) :
    m ∈ glnr_children depth cs ↔
      ∃ c ∈ cs, m ∈ get_leaf_nodes_recursion depth c := by
  induction cs with
  | nil => simp [glnr_children]
  | cons c rest ih =>
      simp only [glnr_children, List.mem_append, ih, List.mem_cons]
      constructor
      · rintro (hm | ⟨c', hc', hm⟩)
        · exact ⟨c, Or.inl rfl, hm⟩
        · exact ⟨c', Or.inr hc', hm⟩
      · rintro ⟨c', hc' | hc', hm⟩
        · exact Or.inl (hc' ▸ hm)
        · exact Or.inr ⟨c', hc', hm⟩

/-- Membership: `get_leaf_nodes_recursion` collects exactly the first-cut nodes: a
node is in the result iff it is the first node along its branch that is a
leaf or sits at the requested depth.  In particular the traversal never
returns a node below another returned node. -/
theorem mem_glnr_iff_firstCut (depth : ℕ) (n : QuadtreeNode) :
    ∀ m, m ∈ get_leaf_nodes_recursion depth n ↔ FirstCut depth n m := by
  induction n using QuadtreeNode.strong_ind with
  | _ b d e l pts cs ih =>
      intro m
      by_cases hst : l = true ∨ d = depth
      · have hst' : (QuadtreeNode.node b d e l pts cs).is_leaf = true ∨
            (QuadtreeNode.node b d e l pts cs).depth = depth := by
          simpa [QuadtreeNode.is_leaf, QuadtreeNode.depth] using hst
        simp only [get_leaf_nodes_recursion, if_pos hst, List.mem_singleton]
        constructor
        · rintro rfl
          exact FirstCut.here _ hst'
        · intro hfc
          cases hfc with
          | here _ _ => rfl
          | deeper hnot hc hfc => exact absurd hst' hnot
      · have hst' : ¬ ((QuadtreeNode.node b d e l pts cs).is_leaf = true ∨
            (QuadtreeNode.node b d e l pts cs).depth = depth) := by
          simpa [QuadtreeNode.is_leaf, QuadtreeNode.depth] using hst
        simp only [get_leaf_nodes_recursion, if_neg hst]
        rw [mem_glnr_children_iff]
        constructor
        · rintro ⟨c, hc, hm⟩
          exact FirstCut.deeper hst'
            (by simpa [QuadtreeNode.childrens] using hc) ((ih c hc m).mp hm)
        · intro hfc
          cases hfc with
          | here _ hcond => exact absurd hcond hst'
          | deeper hnot hc hfc =>
              rename_i c
              have hc' : c ∈ cs := by simpa [QuadtreeNode.childrens] using hc
              exact ⟨c, hc', (ih c hc' _).mpr hfc⟩

/-- One-step unfolding of the traversal (definitional). -/
theorem glnr_unfold (depth d : ℕ) (b : Box) (e : ℚ) (l : Bool)
    (pts : List Point) (cs : List QuadtreeNode) :
    get_leaf_nodes_recursion depth (QuadtreeNode.node b d e l pts cs) =
      if l = true ∨ d = depth then [QuadtreeNode.node b d e l pts cs]
      else glnr_children depth cs := rfl

theorem cover_set_append (l1 l2 : List QuadtreeNode) :
    cover_set (l1 ++ l2) = cover_set l1 ∪ cover_set l2 := by
  ext q
  simp only [cover_set, Set.mem_setOf_eq, List.mem_append, Set.mem_union]
  constructor
  · rintro ⟨m, hm | hm, hq⟩
    · exact Or.inl ⟨m, hm, hq⟩
    · exact Or.inr ⟨m, hm, hq⟩
  · rintro (⟨m, hm, hq⟩ | ⟨m, hm, hq⟩)
    · exact ⟨m, Or.inl hm, hq⟩
    · exact ⟨m, Or.inr hm, hq⟩

theorem cover_set_singleton (n : QuadtreeNode) :
    cover_set [n] = n.border_box.region := by
  ext q
  simp [cover_set]

/-- Unfolding the traversal at a non-leaf node away from the requested
depth: the concatenation of the four child traversals. -/
theorem glnr_branch_eq (depth d : ℕ) (b : Box) (e : ℚ) (pts : List Point)
    (c0 c1 c2 c3 : QuadtreeNode) (hd : d ≠ depth) :
    get_leaf_nodes_recursion depth
        (QuadtreeNode.node b d e false pts [c0, c1, c2, c3]) =
      get_leaf_nodes_recursion depth c0 ++ (get_leaf_nodes_recursion depth c1
        ++ (get_leaf_nodes_recursion depth c2 ++
          get_leaf_nodes_recursion depth c3)) := by
  simp [get_leaf_nodes_recursion, glnr_children, hd]

/-- Every region returned by the traversal sits inside the node's region. -/
theorem glnr_subset {err : Box → ℚ} {n : QuadtreeNode} (hb : Built err n)
    (depth : ℕ) : n.border_box.Ordered →
      ∀ m ∈ get_leaf_nodes_recursion depth n,
        m.border_box.region ⊆ n.border_box.region := by
  induction hb with
  | leaf b d pts hst =>
      intro _ m hm
      rw [glnr_unfold, if_pos (Or.inl rfl), List.mem_singleton] at hm
      subst hm
      exact subset_rfl
  | branch b d pts c0 c1 c2 c3 hst h0 h1 h2 h3 hd0 hd1 hd2 hd3
      b0 b1 b2 b3 ih0 ih1 ih2 ih3 =>
      intro hord m hm
      by_cases hd : d = depth
      · rw [glnr_unfold, if_pos (Or.inr hd), List.mem_singleton] at hm
        subst hm
        exact subset_rfl
      · rw [glnr_branch_eq depth d b _ pts c0 c1 c2 c3 hd] at hm
        simp only [QuadtreeNode.border_box] at hord ⊢
        have hq := quad_subset b hord
        simp only [List.mem_append] at hm
        rcases hm with hm | hm | hm | hm
        · exact subset_trans (by
            have := ih0 (by rw [h0]; exact (quad_ordered b hord).1) m hm
            rwa [h0] at this) hq.1
        · exact subset_trans (by
            have := ih1 (by rw [h1]; exact (quad_ordered b hord).2.1) m hm
            rwa [h1] at this) hq.2.1
        · exact subset_trans (by
            have := ih2 (by rw [h2]; exact (quad_ordered b hord).2.2.1) m hm
            rwa [h2] at this) hq.2.2.1
        · exact subset_trans (by
            have := ih3 (by rw [h3]; exact (quad_ordered b hord).2.2.2) m hm
            rwa [h3] at this) hq.2.2.2

/-- The regions of the traversal result cover the node's region exactly. -/
theorem glnr_cover {err : Box → ℚ} {n : QuadtreeNode} (hb : Built err n)
    (depth : ℕ) : n.border_box.Ordered →
      cover_set (get_leaf_nodes_recursion depth n) =
        n.border_box.region := by
  induction hb with
  | leaf b d pts hst =>
      intro _
      rw [glnr_unfold, if_pos (Or.inl rfl)]
      exact cover_set_singleton _
  | branch b d pts c0 c1 c2 c3 hst h0 h1 h2 h3 hd0 hd1 hd2 hd3
      b0 b1 b2 b3 ih0 ih1 ih2 ih3 =>
      intro hord
      by_cases hd : d = depth
      · rw [glnr_unfold, if_pos (Or.inr hd)]
        exact cover_set_singleton _
      · rw [glnr_branch_eq depth d b _ pts c0 c1 c2 c3 hd]
        simp only [QuadtreeNode.border_box] at hord ⊢
        rw [cover_set_append, cover_set_append, cover_set_append]
        rw [ih0 (by rw [h0]; exact (quad_ordered b hord).1),
          ih1 (by rw [h1]; exact (quad_ordered b hord).2.1),
          ih2 (by rw [h2]; exact (quad_ordered b hord).2.2.1),
          ih3 (by rw [h3]; exact (quad_ordered b hord).2.2.2)]
        rw [h0, h1, h2, h3]
        exact quad_cover b hord

/-- The regions of the traversal result are pairwise disjoint. -/
theorem glnr_pairwise {err : Box → ℚ} {n : QuadtreeNode} (hb : Built err n)
    (depth : ℕ) : n.border_box.Ordered →
      (get_leaf_nodes_recursion depth n).Pairwise
        (fun u v => u.border_box.region ∩ v.border_box.region = ∅) := by
  induction hb with
  | leaf b d pts hst =>
      intro _
      rw [glnr_unfold, if_pos (Or.inl rfl)]
      exact List.pairwise_singleton _ _
  | branch b d pts c0 c1 c2 c3 hst h0 h1 h2 h3 hd0 hd1 hd2 hd3
      b0 b1 b2 b3 ih0 ih1 ih2 ih3 =>
      intro hord
      by_cases hd : d = depth
      · rw [glnr_unfold, if_pos (Or.inr hd)]
        exact List.pairwise_singleton _ _
      · rw [glnr_branch_eq depth d b _ pts c0 c1 c2 c3 hd]
        simp only [QuadtreeNode.border_box] at hord
        have ho0 : c0.border_box.Ordered := by
          rw [h0]; exact (quad_ordered b hord).1
        have ho1 : c1.border_box.Ordered := by
          rw [h1]; exact (quad_ordered b hord).2.1
        have ho2 : c2.border_box.Ordered := by
          rw [h2]; exact (quad_ordered b hord).2.2.1
        have ho3 : c3.border_box.Ordered := by
          rw [h3]; exact (quad_ordered b hord).2.2.2
        have hs0 := glnr_subset b0 depth ho0
        have hs1 := glnr_subset b1 depth ho1
        have hs2 := glnr_subset b2 depth ho2
        have hs3 := glnr_subset b3 depth ho3
        have hdisj := quad_disjoints b
        rw [List.pairwise_append]
        refine ⟨ih0 ho0, ?_, ?_⟩
        · rw [List.pairwise_append]
          refine ⟨ih1 ho1, ?_, ?_⟩
          · rw [List.pairwise_append]
            refine ⟨ih2 ho2, ih3 ho3, ?_⟩
            · intro u hu v hv
              exact inter_empty_mono (hs2 u hu) (hs3 v hv)
                (by rw [h2, h3]; exact hdisj.2.2.2.2.2)
          · intro u hu v hv
            simp only [List.mem_append] at hv
            rcases hv with hv | hv
            · exact inter_empty_mono (hs1 u hu) (hs2 v hv)
                (by rw [h1, h2]; exact hdisj.2.2.2.1)
            · exact inter_empty_mono (hs1 u hu) (hs3 v hv)
                (by rw [h1, h3]; exact hdisj.2.2.2.2.1)
        · intro u hu v hv
          simp only [List.mem_append] at hv
          rcases hv with hv | hv | hv
          · exact inter_empty_mono (hs0 u hu) (hs1 v hv)
              (by rw [h0, h1]; exact hdisj.1)
          · exact inter_empty_mono (hs0 u hu) (hs2 v hv)
              (by rw [h0, h2]; exact hdisj.2.1)
          · exact inter_empty_mono (hs0 u hu) (hs3 v hv)
              (by rw [h0, h3]; exact hdisj.2.2.1)

/-- The `max_depth` accumulator returned by `__build_tree` is the running
maximum of the accumulator's initial value and the depths of all leaves:
each stopping node contributes `max` of its depth, nothing else updates
the counter. -/
theorem build_tree_snd (err : Box → ℚ) (fuel : ℕ) (b : Box) (d md : ℕ) :
    (build_tree err fuel b d md).2 =
      (leaf_depths (build_tree err fuel b d md).1).foldl max md := by
  induction fuel generalizing b d md with
  | zero =>
      simp [build_tree, leaf_depths]
  | succ f ih =>
      by_cases hst : MAX_DEPTH ≤ d ∨ err b ≤ ERROR_THRESHOLD
      · simp [build_tree, if_pos hst, leaf_depths]
      · simp only [build_tree, if_neg hst]
        rw [leaf_depths]
        simp only [Bool.false_eq_true, if_false, leaf_depths_children,
          List.append_nil, List.foldl_append]
        rw [ih, ih, ih, ih]

/-- Along the descent path, `insert_point` appends the point to a node's
local collection exactly when `records_point` holds there: at the terminal
node, and at an internal node only when the point routes to one of its
bottom quadrants.  Stated over the path of the updated tree (routing is
unchanged: boxes and child shapes are preserved). -/
theorem insert_point_path (p : Point) (n : QuadtreeNode) :
    (descent_path p (insert_point p n)).map QuadtreeNode.node_points =
      (descent_path p n).map (fun m =>
        if records_point p m then m.node_points ++ [p] else m.node_points) := by
  induction n using QuadtreeNode.strong_ind with
  | _ b d e l pts cs ih =>
      rcases cs with _ | ⟨c0, _ | ⟨c1, _ | ⟨c2, _ | ⟨c3, _ | ⟨c4, rest⟩⟩⟩⟩⟩
      · simp [insert_point, descent_path, records_point,
          QuadtreeNode.childrens, QuadtreeNode.node_points]
      · simp [insert_point, descent_path, records_point,
          QuadtreeNode.childrens, QuadtreeNode.node_points]
      · simp [insert_point, descent_path, records_point,
          QuadtreeNode.childrens, QuadtreeNode.node_points]
      · simp [insert_point, descent_path, records_point,
          QuadtreeNode.childrens, QuadtreeNode.node_points]
      · have hrec : records_point p (QuadtreeNode.node b d e l pts
            [c0, c1, c2, c3]) =
            decide (b.node_center_point.y_coordinate ≤ p.y_coordinate) := by
          simp [records_point, QuadtreeNode.childrens,
            QuadtreeNode.border_box, QuadtreeNode.node_center_point]
        by_cases h1 : p.x_coordinate < b.node_center_point.x_coordinate ∧
            p.y_coordinate < b.node_center_point.y_coordinate
        · have hy : ¬ b.node_center_point.y_coordinate ≤ p.y_coordinate :=
            not_le.mpr h1.2
          simp only [insert_point, if_pos h1]
          simp only [descent_path, if_pos h1, List.map_cons, hrec,
            QuadtreeNode.node_points, hy, decide_False, Bool.false_eq_true,
            if_false, List.cons.injEq]
          exact ⟨trivial, ih c0 (by simp)⟩
        · by_cases h2 : b.node_center_point.x_coordinate ≤ p.x_coordinate ∧
              p.y_coordinate < b.node_center_point.y_coordinate
          · have hy : ¬ b.node_center_point.y_coordinate ≤ p.y_coordinate :=
              not_le.mpr h2.2
            simp only [insert_point, if_neg h1, if_pos h2]
            simp only [descent_path, if_neg h1, if_pos h2, List.map_cons,
              hrec, QuadtreeNode.node_points, hy, decide_False,
              Bool.false_eq_true, if_false, List.cons.injEq]
            exact ⟨trivial, ih c1 (by simp)⟩
          · have hy : b.node_center_point.y_coordinate ≤ p.y_coordinate := by
              rcases le_or_lt b.node_center_point.y_coordinate
                  p.y_coordinate with h | h
              · exact h
              · rcases lt_or_le p.x_coordinate
                    b.node_center_point.x_coordinate with hx | hx
                · exact absurd ⟨hx, h⟩ h1
                · exact absurd ⟨hx, h⟩ h2
            by_cases hx3 : p.x_coordinate < b.node_center_point.x_coordinate
            · simp only [insert_point, if_neg h1, if_neg h2,
                if_pos (And.intro hx3 hy)]
              simp only [descent_path, if_neg h1, if_neg h2, List.map_cons,
                hrec, QuadtreeNode.node_points, hy, decide_True, if_true,
                and_true, if_pos hx3, List.cons.injEq]
              exact ⟨trivial, ih c2 (by simp)⟩
            · have h3 : ¬ (p.x_coordinate <
                  b.node_center_point.x_coordinate ∧
                  b.node_center_point.y_coordinate ≤ p.y_coordinate) := by
                intro hcon
                exact hx3 hcon.1
              simp only [insert_point, if_neg h1, if_neg h2, if_neg h3]
              simp only [descent_path, if_neg h1, if_neg h2, List.map_cons,
                hrec, QuadtreeNode.node_points, hy, decide_True, if_true,
                and_true, if_neg hx3, List.cons.injEq]
              exact ⟨trivial, ih c3 (by simp)⟩
      · simp [insert_point, descent_path, records_point,
          QuadtreeNode.childrens, QuadtreeNode.node_points]

theorem cover_set_nil : cover_set [] = ∅ := by
  ext q
  simp [cover_set]

theorem cover_set_cons (n : QuadtreeNode) (l : List QuadtreeNode) :
    cover_set (n :: l) = n.border_box.region ∪ cover_set l := by
  ext q
  simp only [cover_set, Set.mem_setOf_eq, List.mem_cons, Set.mem_union]
  constructor
  · rintro ⟨m, rfl | hm, hq⟩
    · exact Or.inl hq
    · exact Or.inr ⟨m, hm, hq⟩
  · rintro (hq | ⟨m, hm, hq⟩)
    · exact ⟨n, Or.inl rfl, hq⟩
    · exact ⟨m, Or.inr hm, hq⟩

/-- In a built tree a node is flagged leaf exactly when the stopping rule
fired for it, and its cached error metric is the error of its box. -/
theorem built_leaf_iff {err : Box → ℚ} {m : QuadtreeNode}
    (hb : Built err m) :
    (m.is_leaf = true ↔
      MAX_DEPTH ≤ m.depth ∨ m.error ≤ ERROR_THRESHOLD) ∧
    m.error = err m.border_box := by
  cases hb with
  | leaf b d pts hst =>
      refine ⟨?_, rfl⟩
      simp only [QuadtreeNode.is_leaf, QuadtreeNode.depth, QuadtreeNode.error]
      exact iff_of_true trivial hst
  | branch b d pts c0 c1 c2 c3 hst h0 h1 h2 h3 hd0 hd1 hd2 hd3
      b0 b1 b2 b3 =>
      refine ⟨?_, rfl⟩
      simp only [QuadtreeNode.is_leaf, QuadtreeNode.depth, QuadtreeNode.error]
      exact iff_of_false (by simp) hst

theorem list_sum_eq_sum_getD (l : List ℕ) :
    l.sum = ∑ i in Finset.range l.length, l.getD i 0 := by
  induction l with
  | nil => simp
  | cons a t ih =>
      rw [List.sum_cons, List.length_cons, Finset.sum_range_succ']
      simp only [List.getD_cons_succ, List.getD_cons_zero]
      rw [ih]
      omega

theorem concentrated_hist_length (k c : ℕ) :
    (concentrated_hist k c).length = 256 := by
  simp [concentrated_hist]

theorem concentrated_hist_getD (k c i : ℕ) (hi : i < 256) :
    (concentrated_hist k c).getD i 0 = if i = k then c else 0 := by
  rw [List.getD_eq_getElem?_getD]
  rw [List.getElem?_eq_getElem (by simpa [concentrated_hist_length] using hi)]
  simp [concentrated_hist]

theorem concentrated_hist_sum (k c : ℕ) (hk : k < 256) :
    (concentrated_hist k c).sum = c := by
  rw [list_sum_eq_sum_getD, concentrated_hist_length]
  rw [Finset.sum_congr rfl (fun i hi =>
    concentrated_hist_getD k c i (Finset.mem_range.mp hi))]
  rw [Finset.sum_ite_eq' (Finset.range 256) k (fun _ => c)]
  simp [Finset.mem_range.mpr hk]

/-- Over `Except`, `mapM` returns `ok` (one result per input) when every
requested level is within the tree height. -/
theorem mapM_leaves_ok (qt : QuadTree) (l : List ℕ)
    (hall : ∀ v ∈ l, v ≤ qt.max_depth) :
    ∃ res, l.mapM (fun v => create_image_leaves qt v) = Except.ok res ∧
      res.length = l.length := by
  induction l with
  | nil => exact ⟨[], rfl, rfl⟩
  | cons v rest ih =>
      obtain ⟨res, hres, hlen⟩ := ih (fun u hu => hall u (List.mem_cons_of_mem _ hu))
      have hv : create_image_leaves qt v =
          Except.ok (get_leaf_nodes_recursion v qt.root) := by
        have := hall v (List.mem_cons_self _ _)
        simp [create_image_leaves, QuadTree.get_leaf_nodes, Nat.not_lt.mpr this]
      refine ⟨get_leaf_nodes_recursion v qt.root :: res, ?_, by simp [hlen]⟩
      rw [List.mapM_cons, hv, hres]
      rfl

/-- Over `Except`, `mapM` short-circuits with the InvalidDepth error as soon
as some requested level exceeds the tree height. -/
theorem mapM_leaves_error (qt : QuadTree) (l : List ℕ)
    (hex : ∃ v ∈ l, qt.max_depth < v) :
    l.mapM (fun v => create_image_leaves qt v) =
      Except.error invalid_depth_msg := by
  induction l with
  | nil => simp at hex
  | cons v rest ih =>
      by_cases hv : qt.max_depth < v
      · have hfail : create_image_leaves qt v =
            Except.error invalid_depth_msg := by
          simp [create_image_leaves, QuadTree.get_leaf_nodes, hv]
        rw [List.mapM_cons, hfail]
        rfl
      · obtain ⟨u, hu, hmu⟩ := hex
        have hu' : u ∈ rest := by
          rcases List.mem_cons.mp hu with rfl | h
          · exact absurd hmu hv
          · exact h
        have hok : create_image_leaves qt v =
            Except.ok (get_leaf_nodes_recursion v qt.root) := by
          simp [create_image_leaves, QuadTree.get_leaf_nodes, hv]
        rw [List.mapM_cons, hok, ih ⟨u, hu', hmu⟩]
        rfl

/-- Evaluating `weighted_average` on a histogram concentrated at bin `k`: the value is
`k` and the error radicand is `0`. -/
theorem weighted_average_concentrated (k c : ℕ) (hk : k < 256)
    (hc : 0 < c) :
    weighted_average (concentrated_hist k c) = ((k : ℚ), 0) := by
  have hc' : ((c : ℚ)) ≠ 0 := Nat.cast_ne_zero.mpr hc.ne'
  have hsum := concentrated_hist_sum k c hk
  have hlen := concentrated_hist_length k c
  have hpos : 0 < (concentrated_hist k c).sum := by rw [hsum]; exact hc
  have hterm : ∀ i ∈ Finset.range (concentrated_hist k c).length,
      ((concentrated_hist k c).getD i 0 : ℚ) =
        if i = k then (c : ℚ) else 0 := by
    intro i hi
    rw [concentrated_hist_getD k c i
      (by rw [hlen] at hi; exact Finset.mem_range.mp hi)]
    split <;> simp
  have hval : (∑ i in Finset.range (concentrated_hist k c).length,
      (i : ℚ) * ((concentrated_hist k c).getD i 0 : ℚ)) = (k : ℚ) * c := by
    rw [Finset.sum_congr rfl (fun i hi => by
      rw [hterm i hi, mul_ite, mul_zero])]
    rw [Finset.sum_ite_eq' (Finset.range (concentrated_hist k c).length) k
      (fun i => (i : ℚ) * c)]
    rw [hlen]
    simp [Finset.mem_range.mpr hk]
  have hdiv : (∑ i in Finset.range (concentrated_hist k c).length,
      (i : ℚ) * ((concentrated_hist k c).getD i 0 : ℚ)) /
        ((concentrated_hist k c).sum : ℚ) = (k : ℚ) := by
    rw [hval, hsum, mul_div_cancel_right₀ _ hc']
  have herr : (∑ i in Finset.range (concentrated_hist k c).length,
      ((concentrated_hist k c).getD i 0 : ℚ) * ((k : ℚ) - i) ^ 2) = 0 := by
    apply Finset.sum_eq_zero
    intro i hi
    rw [hterm i hi]
    by_cases h : i = k
    · subst h
      simp
    · simp [h]
  simp only [weighted_average, if_pos hpos]
  rw [hdiv, herr]
  simp

/-- The histogram of a uniform flat-colour crop (all red counts at bin `r`,
green at `g`, blue at `u`) produces the flat colour with per-channel error
radicands 0, and the combined luma error of the code is then 0: such a node
always satisfies `error ≤ ERROR_THRESHOLD` and stops as a leaf. -/
theorem color_from_histogram_concentrated (r g u n : ℕ) (hr : r < 256)
    (hg : g < 256) (hu : u < 256) (hn : 0 < n) :
    color_from_histogram (concentrated_hist r n ++
        (concentrated_hist g n ++ concentrated_hist u n)) =
      (((r : ℤ), (g : ℤ), (u : ℤ)), (0, 0, 0)) ∧
    combined_error (0, 0, 0) = 0 := by
  constructor
  · have h1 : (concentrated_hist r n ++
        (concentrated_hist g n ++ concentrated_hist u n)).take 256 =
        concentrated_hist r n :=
      List.take_left' (concentrated_hist_length r n)
    have h2 : (concentrated_hist r n ++
        (concentrated_hist g n ++ concentrated_hist u n)).drop 256 =
        concentrated_hist g n ++ concentrated_hist u n :=
      List.drop_left' (concentrated_hist_length r n)
    have h3 : ((concentrated_hist g n ++ concentrated_hist u n)).take 256 =
        concentrated_hist g n :=
      List.take_left' (concentrated_hist_length g n)
    have h4 : (concentrated_hist r n ++
        (concentrated_hist g n ++ concentrated_hist u n)).drop 512 =
        concentrated_hist u n := by
      have h512 : (512 : ℕ) = 256 + 256 := by norm_num
      rw [h512, ← List.drop_drop, h2, List.drop_left'
        (concentrated_hist_length g n)]
    have h5 : (concentrated_hist u n).take 256 = concentrated_hist u n :=
      List.take_of_length_le (le_of_eq (concentrated_hist_length u n))
    simp only [color_from_histogram, h1, h2, h3, h4, h5,
      weighted_average_concentrated r n hr hn,
      weighted_average_concentrated g n hg hn,
      weighted_average_concentrated u n hu hn]
    norm_num
  · simp [combined_error, Real.sqrt_zero]

/-- C1: for every built tree and every depth `d ≤ maxDepthReached`,
`get_leaf_nodes d` succeeds and returns the pre-order cut list: a node is
in the result exactly when it is the first node along its root-to-leaf
branch with `is_leaf = true` or `depth = d` (`FirstCut`; hence the
traversal never returns a descendant of a returned node), and the returned
regions are pairwise disjoint and together cover exactly the full image
area (the root is built over the full bounds `full_box w h`). -/
theorem C1_get_leaf_nodes_first_cut_partition (err : Box → ℚ) (w h d : ℕ)
    (hd : d ≤ (QuadTree.build err w h).max_depth) :
    (QuadTree.build err w h).get_leaf_nodes d =
      Except.ok (get_leaf_nodes_recursion d (QuadTree.build err w h).root) ∧
    (∀ m, m ∈ get_leaf_nodes_recursion d (QuadTree.build err w h).root ↔
      FirstCut d (QuadTree.build err w h).root m) ∧
    (get_leaf_nodes_recursion d (QuadTree.build err w h).root).Pairwise
      (fun u v => u.border_box.region ∩ v.border_box.region = ∅) ∧
    cover_set (get_leaf_nodes_recursion d (QuadTree.build err w h).root) =
      (full_box w h).region := by
  have hb := root_built err w h
  have hord : (QuadTree.build err w h).root.border_box.Ordered := by
    rw [root_border_box]
    exact ⟨Nat.cast_nonneg w, Nat.cast_nonneg h⟩
  refine ⟨?_, ?_, ?_, ?_⟩
  · simp [QuadTree.get_leaf_nodes, Nat.not_lt.mpr hd]
  · exact fun m => mem_glnr_iff_firstCut d _ m
  · exact glnr_pairwise hb d hord
  · rw [glnr_cover hb d hord, root_border_box]

theorem C1_witness :
    0 ≤ (QuadTree.build zero_error 1 1).max_depth ∧
    ((QuadTree.build zero_error 1 1).get_leaf_nodes 0 =
      Except.ok (get_leaf_nodes_recursion 0
        (QuadTree.build zero_error 1 1).root) ∧
    (∀ m, m ∈ get_leaf_nodes_recursion 0
        (QuadTree.build zero_error 1 1).root ↔
      FirstCut 0 (QuadTree.build zero_error 1 1).root m) ∧
    (get_leaf_nodes_recursion 0
        (QuadTree.build zero_error 1 1).root).Pairwise
      (fun u v => u.border_box.region ∩ v.border_box.region = ∅) ∧
    cover_set (get_leaf_nodes_recursion 0
        (QuadTree.build zero_error 1 1).root) = (full_box 1 1).region) :=
  ⟨Nat.zero_le _,
    C1_get_leaf_nodes_first_cut_partition zero_error 1 1 0 (Nat.zero_le _)⟩

/-- C4: `get_leaf_nodes d` fails with InvalidDepth exactly when
`d > maxDepthReached`; for `d ≤ maxDepthReached` it returns the depth-`d`
traversal of the root unchanged (no clamping), and in particular
`get_leaf_nodes (maxDepthReached + 1)` fails. -/
theorem C4_invalid_depth_iff (err : Box → ℚ) (w h d : ℕ) :
    ((QuadTree.build err w h).get_leaf_nodes d =
        Except.error invalid_depth_msg ↔
      (QuadTree.build err w h).max_depth < d) ∧
    (d ≤ (QuadTree.build err w h).max_depth →
      (QuadTree.build err w h).get_leaf_nodes d =
        Except.ok (get_leaf_nodes_recursion d
          (QuadTree.build err w h).root)) ∧
    (QuadTree.build err w h).get_leaf_nodes
        ((QuadTree.build err w h).max_depth + 1) =
      Except.error invalid_depth_msg := by
  refine ⟨⟨?_, ?_⟩, ?_, ?_⟩
  · intro hEq
    by_contra hlt
    rw [QuadTree.get_leaf_nodes, if_neg hlt] at hEq
    exact Except.noConfusion hEq
  · intro hlt
    rw [QuadTree.get_leaf_nodes, if_pos hlt]
  · intro hle
    rw [QuadTree.get_leaf_nodes, if_neg (Nat.not_lt.mpr hle)]
  · rw [QuadTree.get_leaf_nodes, if_pos (Nat.lt_succ_self _)]

theorem C4_witness :
    0 ≤ (QuadTree.build zero_error 1 1).max_depth ∧
    (QuadTree.build zero_error 1 1).get_leaf_nodes 0 =
      Except.ok (get_leaf_nodes_recursion 0
        (QuadTree.build zero_error 1 1).root) ∧
    (QuadTree.build zero_error 1 1).get_leaf_nodes
        ((QuadTree.build zero_error 1 1).max_depth + 1) =
      Except.error invalid_depth_msg :=
  ⟨Nat.zero_le _,
    (C4_invalid_depth_iff zero_error 1 1 0).2.1 (Nat.zero_le _),
    (C4_invalid_depth_iff zero_error 1 1 0).2.2⟩

/-- C5 (counterexample): on the uniform zero-error image, construction
does produce a single leaf at depth 0, but the compression result for the
requested level 1 (a level `≥ 0`) is the InvalidDepth error, not that
root leaf, refuting "the compression result for any requested level >= 0
is that single root leaf". -/
theorem C5_counterexample :
    (QuadTree.build zero_error 8 8).root.is_leaf = true ∧
    (QuadTree.build zero_error 8 8).root.depth = 0 ∧
    (QuadTree.build zero_error 8 8).get_leaf_nodes 1 =
      Except.error invalid_depth_msg :=
  ⟨rfl, rfl, rfl⟩

/-- C5 (amended): for every image whose root error metric is within the
threshold — a uniform flat-colour image has root error 0, see
`color_from_histogram_concentrated` — construction produces a single leaf
at depth 0 and `maxDepthReached = 0`; the compression result for requested
level 0 is exactly that single root leaf, and every requested level ≥ 1
fails with InvalidDepth instead of returning it. -/
theorem C5_uniform_single_leaf (err : Box → ℚ) (w h : ℕ)
    (herr : err (full_box w h) ≤ ERROR_THRESHOLD) :
    (QuadTree.build err w h).root =
      QuadtreeNode.node (full_box w h) 0 (err (full_box w h)) true [] [] ∧
    (QuadTree.build err w h).max_depth = 0 ∧
    (QuadTree.build err w h).get_leaf_nodes 0 =
      Except.ok [(QuadTree.build err w h).root] ∧
    ∀ level, 1 ≤ level →
      (QuadTree.build err w h).get_leaf_nodes level =
        Except.error invalid_depth_msg := by
  have hbuild : build_tree err (MAX_DEPTH + 1) (full_box w h) 0 0 =
      (QuadtreeNode.node (full_box w h) 0 (err (full_box w h)) true [] [],
        0) := by
    rw [build_tree_succ, if_pos (Or.inr herr), Nat.max_self]
  have h1 : (QuadTree.build err w h).root =
      QuadtreeNode.node (full_box w h) 0 (err (full_box w h)) true [] [] := by
    simp only [QuadTree.build, hbuild]
  have h2 : (QuadTree.build err w h).max_depth = 0 := by
    simp only [QuadTree.build, hbuild]
  refine ⟨h1, h2, ?_, ?_⟩
  · rw [QuadTree.get_leaf_nodes, h2, if_neg (by omega)]
    rw [h1, glnr_unfold, if_pos (Or.inl rfl)]
  · intro level hlevel
    rw [QuadTree.get_leaf_nodes, h2, if_pos (by omega)]

theorem C5_witness :
    zero_error (full_box 8 8) ≤ ERROR_THRESHOLD ∧
    ((QuadTree.build zero_error 8 8).root =
      QuadtreeNode.node (full_box 8 8) 0 (zero_error (full_box 8 8))
        true [] [] ∧
    (QuadTree.build zero_error 8 8).max_depth = 0 ∧
    (QuadTree.build zero_error 8 8).get_leaf_nodes 0 =
      Except.ok [(QuadTree.build zero_error 8 8).root] ∧
    (QuadTree.build zero_error 8 8).get_leaf_nodes 1 =
      Except.error invalid_depth_msg) := by
  have h := C5_uniform_single_leaf zero_error 8 8 (by decide)
  exact ⟨by decide, h.1, h.2.1, h.2.2.1, h.2.2.2 1 (le_refl 1)⟩

/-- C2 (counterexample): inserting the point (0, 0) — routed to the
top-left quadrant — records it only at the terminal child; the root, a
node with children on the descent path, keeps an empty local collection,
refuting "insert records P at every node along the root-to-terminal
descent path".  (The two top-quadrant branches of `insert_point` `return`
before the trailing append.) -/
theorem C2_counterexample :
    insert_point ⟨0, 0⟩ c2_tree =
      QuadtreeNode.node ⟨0, 0, 2, 2⟩ 0 100 false []
        [QuadtreeNode.node ⟨0, 0, 1, 1⟩ 1 0 true [⟨0, 0⟩] [],
         QuadtreeNode.node ⟨1, 0, 2, 1⟩ 1 0 true [] [],
         QuadtreeNode.node ⟨0, 1, 1, 2⟩ 1 0 true [] [],
         QuadtreeNode.node ⟨1, 1, 2, 2⟩ 1 0 true [] []] ∧
    (insert_point ⟨0, 0⟩ c2_tree).node_points = [] ∧
    c2_tree.childrens ≠ [] := by
  have hins : insert_point ⟨0, 0⟩ c2_tree =
      QuadtreeNode.node ⟨0, 0, 2, 2⟩ 0 100 false []
        [QuadtreeNode.node ⟨0, 0, 1, 1⟩ 1 0 true [⟨0, 0⟩] [],
         QuadtreeNode.node ⟨1, 0, 2, 1⟩ 1 0 true [] [],
         QuadtreeNode.node ⟨0, 1, 1, 2⟩ 1 0 true [] [],
         QuadtreeNode.node ⟨1, 1, 2, 2⟩ 1 0 true [] []] := by
    rw [c2_tree]
    rw [insert_point]
    norm_num [Box.node_center_point, insert_point]
  exact ⟨hins, by rw [hins]; rfl, by rw [c2_tree]; simp [QuadtreeNode.childrens]⟩

/-- C2 (amended): `insert_point` records the point at the terminal node of
the descent path, and at an internal node on the path exactly when the
point's y-coordinate is on the greater-or-equal side of that node's centre
(bottom-left/bottom-right routing); points routed to a top quadrant are
not recorded at that ancestor. -/
theorem C2_insert_records_along_path (p : Point) (n : QuadtreeNode) :
    (descent_path p (insert_point p n)).map QuadtreeNode.node_points =
      (descent_path p n).map (fun m =>
        if records_point p m then m.node_points ++ [p]
        else m.node_points) :=
  insert_point_path p n

/-- C3 (evaluation at the failing input): `remove_point (1, 2)` on a
terminal node storing exactly (1, 2) removes nothing — the terminal
collection still contains the exact coordinate match — because
`Point.__eq__` compares `self.x_coordinate` with `another.y_coordinate`:
`(1,2) == (1,2)` is false while `(2,2) == (1,2)` is true. -/
theorem C3_remove_point_misses_exact_match :
    (find_node ⟨1, 2⟩ c3_tree []).1 = c3_tree ∧
    remove_point ⟨1, 2⟩ c3_tree = c3_tree ∧
    Point.mk 1 2 ∈ (remove_point ⟨1, 2⟩ c3_tree).node_points ∧
    Point.pyEq ⟨1, 2⟩ ⟨1, 2⟩ = false ∧
    Point.pyEq ⟨2, 2⟩ ⟨1, 2⟩ = true := by
  exact ⟨rfl, rfl, by decide, by decide, by decide⟩

/-- C6: `weighted_average` returns `(0, 0)` on an all-zero histogram;
otherwise its value is `Σ i·bins[i] / total` and its error is the square
root of `Σ bins[i]·(value − i)² / total` (the definition returns the
radicand, the code takes `** 0.5`); on a histogram with all mass at bin
`k` the value is `k` and the error is 0. -/
theorem C6_weighted_average_formula (hist : List ℕ) (k c : ℕ)
    (hk : k < 256) (hc : 0 < c) :
    (hist.sum = 0 → weighted_average hist = (0, 0)) ∧
    (0 < hist.sum →
      weighted_average hist =
        ((∑ i in Finset.range hist.length,
            (i : ℚ) * (hist.getD i 0 : ℚ)) / (hist.sum : ℚ),
          (∑ i in Finset.range hist.length, (hist.getD i 0 : ℚ) *
            ((∑ j in Finset.range hist.length,
              (j : ℚ) * (hist.getD j 0 : ℚ)) / (hist.sum : ℚ) -
                (i : ℚ)) ^ 2) / (hist.sum : ℚ))) ∧
    weighted_average (concentrated_hist k c) = ((k : ℚ), 0) ∧
    Real.sqrt (((weighted_average (concentrated_hist k c)).2 : ℚ) : ℝ)
      = 0 := by
  refine ⟨?_, ?_, weighted_average_concentrated k c hk hc, ?_⟩
  · intro h0
    simp only [weighted_average]
    rw [if_neg (by omega)]
  · intro hpos
    simp only [weighted_average]
    rw [if_pos hpos]
  · rw [weighted_average_concentrated k c hk hc]
    simp

theorem C6_witness :
    (7 : ℕ) < 256 ∧ (0 : ℕ) < 3 ∧
    weighted_average (concentrated_hist 7 3) = ((7 : ℚ), 0) ∧
    Real.sqrt (((weighted_average (concentrated_hist 7 3)).2 : ℚ) : ℝ)
      = 0 :=
  ⟨by decide, by decide,
    (C6_weighted_average_formula [] 7 3 (by decide) (by decide)).2.2.1,
    (C6_weighted_average_formula [] 7 3 (by decide) (by decide)).2.2.2⟩

/-- C7: every node of a built tree has exactly 0 or 4 children; a leaf
never has children and a node with children is not a leaf; each child's
depth is the parent's plus one; and the four children's regions partition
the parent's region exactly (disjoint, full cover). -/
theorem C7_structure_invariants (err : Box → ℚ) (w h : ℕ)
    (m : QuadtreeNode) (hm : Occurs m (QuadTree.build err w h).root) :
    (m.childrens.length = 0 ∨ m.childrens.length = 4) ∧
    (m.is_leaf = true → m.childrens = []) ∧
    (m.childrens ≠ [] → m.is_leaf = false) ∧
    (∀ c ∈ m.childrens, c.depth = m.depth + 1) ∧
    (m.childrens ≠ [] →
      cover_set m.childrens = m.border_box.region ∧
      m.childrens.Pairwise
        (fun u v => u.border_box.region ∩ v.border_box.region = ∅)) := by
  have hb := built_occurs (root_built err w h) hm
  have hord : m.border_box.Ordered :=
    built_occurs_ordered hm (root_built err w h)
      (by rw [root_border_box]; exact ⟨Nat.cast_nonneg w, Nat.cast_nonneg h⟩)
  cases hb with
  | leaf b d pts hst =>
      refine ⟨Or.inl rfl, fun _ => rfl, fun hne => absurd rfl hne, ?_,
        fun hne => absurd rfl hne⟩
      intro c hc
      simp [QuadtreeNode.childrens] at hc
  | branch b d pts c0 c1 c2 c3 hst h0 h1 h2 h3 hd0 hd1 hd2 hd3
      b0 b1 b2 b3 =>
      have hd6 := quad_disjoints b
      refine ⟨Or.inr rfl, ?_, fun _ => rfl, ?_, fun _ => ⟨?_, ?_⟩⟩
      · intro hcontra
        simp [QuadtreeNode.is_leaf] at hcontra
      · intro c hc
        simp only [QuadtreeNode.childrens, List.mem_cons,
          List.not_mem_nil, or_false] at hc
        rcases hc with rfl | rfl | rfl | rfl
        · exact hd0
        · exact hd1
        · exact hd2
        · exact hd3
      · show cover_set [c0, c1, c2, c3] = _
        rw [cover_set_cons, cover_set_cons, cover_set_cons, cover_set_cons,
          cover_set_nil, Set.union_empty, h0, h1, h2, h3]
        exact quad_cover b hord
      · show List.Pairwise _ [c0, c1, c2, c3]
        refine List.Pairwise.cons ?_ (List.Pairwise.cons ?_
          (List.Pairwise.cons ?_ (List.pairwise_singleton _ _)))
        · intro v hv
          simp only [List.mem_cons, List.not_mem_nil, or_false] at hv
          rcases hv with rfl | rfl | rfl
          · rw [h0, h1]; exact hd6.1
          · rw [h0, h2]; exact hd6.2.1
          · rw [h0, h3]; exact hd6.2.2.1
        · intro v hv
          simp only [List.mem_cons, List.not_mem_nil, or_false] at hv
          rcases hv with rfl | rfl
          · rw [h1, h2]; exact hd6.2.2.2.1
          · rw [h1, h3]; exact hd6.2.2.2.2.1
        · intro v hv
          simp only [List.mem_cons, List.not_mem_nil, or_false] at hv
          rcases hv with rfl
          rw [h2, h3]; exact hd6.2.2.2.2.2

theorem C7_witness :
    ((QuadTree.build zero_error 1 1).root.childrens.length = 0 ∨
      (QuadTree.build zero_error 1 1).root.childrens.length = 4) ∧
    ((QuadTree.build zero_error 1 1).root.is_leaf = true →
      (QuadTree.build zero_error 1 1).root.childrens = []) ∧
    ((QuadTree.build zero_error 1 1).root.childrens ≠ [] →
      (QuadTree.build zero_error 1 1).root.is_leaf = false) ∧
    (∀ c ∈ (QuadTree.build zero_error 1 1).root.childrens,
      c.depth = (QuadTree.build zero_error 1 1).root.depth + 1) ∧
    ((QuadTree.build zero_error 1 1).root.childrens ≠ [] →
      cover_set (QuadTree.build zero_error 1 1).root.childrens =
        (QuadTree.build zero_error 1 1).root.border_box.region ∧
      (QuadTree.build zero_error 1 1).root.childrens.Pairwise
        (fun u v => u.border_box.region ∩ v.border_box.region = ∅)) :=
  C7_structure_invariants zero_error 1 1 _ (Occurs.refl _)

/-- C8: construction terminates (the embedding `build_tree` is a total
function); in the result a node is flagged leaf (and not split) exactly
when `depth ≥ MAX_DEPTH` or `errorMetric ≤ ERROR_THRESHOLD`;
`maxDepthReached` is the running `max` of the stopping nodes' depths
(starting from 0); and no node's depth exceeds `MAX_DEPTH`. -/
theorem C8_build_stop_rule (err : Box → ℚ) (w h : ℕ) :
    (∀ m, Occurs m (QuadTree.build err w h).root →
      ((m.is_leaf = true ↔
          MAX_DEPTH ≤ m.depth ∨ m.error ≤ ERROR_THRESHOLD) ∧
        m.error = err m.border_box)) ∧
    (QuadTree.build err w h).max_depth =
      (leaf_depths (QuadTree.build err w h).root).foldl max 0 ∧
    (∀ m, Occurs m (QuadTree.build err w h).root →
      m.depth ≤ MAX_DEPTH) := by
  refine ⟨?_, ?_, ?_⟩
  · intro m hm
    exact built_leaf_iff (built_occurs (root_built err w h) hm)
  · exact build_tree_snd err (MAX_DEPTH + 1) (full_box w h) 0 0
  · intro m hm
    exact built_occurs_depth_le hm (root_built err w h)
      (by rw [root_depth]; omega)

theorem C8_witness :
    (((QuadTree.build zero_error 1 1).root.is_leaf = true ↔
        MAX_DEPTH ≤ (QuadTree.build zero_error 1 1).root.depth ∨
          (QuadTree.build zero_error 1 1).root.error ≤ ERROR_THRESHOLD) ∧
      (QuadTree.build zero_error 1 1).root.error =
        zero_error (QuadTree.build zero_error 1 1).root.border_box) ∧
    (QuadTree.build zero_error 1 1).max_depth =
      (leaf_depths (QuadTree.build zero_error 1 1).root).foldl max 0 ∧
    (QuadTree.build zero_error 1 1).root.depth ≤ MAX_DEPTH :=
  ⟨(C8_build_stop_rule zero_error 1 1).1 _ (Occurs.refl _),
    (C8_build_stop_rule zero_error 1 1).2.1,
    (C8_build_stop_rule zero_error 1 1).2.2 _ (Occurs.refl _)⟩

/-- C10: with the animation flag, `compression_start` requests the leaf
set at every depth `0 .. MAX_DEPTH` inclusive; when the built tree has
`maxDepthReached < MAX_DEPTH` the run hits the InvalidDepth error partway
through (so `create_gif`, which writes the file, is never reached), while
a tree of full depth yields all `MAX_DEPTH + 1` frames. -/
theorem C10_animation_aborts (err : Box → ℚ) (w h : ℕ) :
    ((QuadTree.build err w h).max_depth < MAX_DEPTH →
      animation_frames (QuadTree.build err w h) =
        Except.error invalid_depth_msg) ∧
    ((QuadTree.build err w h).max_depth = MAX_DEPTH →
      ∃ frames, animation_frames (QuadTree.build err w h) =
        Except.ok frames ∧ frames.length = MAX_DEPTH + 1) := by
  constructor
  · intro hlt
    simp only [animation_frames]
    apply mapM_leaves_error
    exact ⟨(QuadTree.build err w h).max_depth + 1,
      List.mem_range.mpr (by omega), Nat.lt_succ_self _⟩
  · intro heq
    obtain ⟨res, hres, hlen⟩ :=
      mapM_leaves_ok (QuadTree.build err w h) (List.range (MAX_DEPTH + 1))
        (fun v hv => by
          rw [heq]
          exact Nat.lt_succ_iff.mp (List.mem_range.mp hv))
    refine ⟨res, ?_, by rw [hlen, List.length_range]⟩
    simp only [animation_frames]
    exact hres

theorem C10_witness :
    (QuadTree.build zero_error 8 8).max_depth < MAX_DEPTH ∧
    animation_frames (QuadTree.build zero_error 8 8) =
      Except.error invalid_depth_msg :=
  ⟨by decide, (C10_animation_aborts zero_error 8 8).1 (by decide)⟩

end QuadTreePress
